import Mathlib

/-!
Strategy-pattern cache (`go/strategy/internal/cache.go`).

A shallow embedding of the Go package `cache` and the properties of its four
methods `SetEvictionAlgo`, `Add`, `Get` and `Evict`.

Modelling choices.

* `map[string]string` is Mathlib's `Finmap`: a finite map with unique keys and
  no iteration order, with extensional equality.  `c.storage[key] = value` is
  `Finmap.insert`, the read `c.storage[key]` is `Finmap.lookup` with Go's zero
  value `""` for an absent key, `len(c.storage)` is `keys.card`.
* The interface `EvictionAlgo` is a type `P` of policy objects together with
  the method `evict : P → Cache P → Cache P`.  A Go policy receives `*Cache`
  and lives in the same package, so it may rewrite every field; the method is
  therefore an arbitrary function on the whole struct, and the state of the
  policy object itself is carried by the field `evictionAlgo`.
* `int` counters are mathematical integers.  `InitCache` is the only
  constructor and sets `maxCapacity` to 2, and the methods move `capacity` by
  one per call, so under a policy that leaves the counters alone a run of `n`
  calls keeps `capacity` within `n + 2` of zero and the wrap-around of Go's
  64-bit `int` is out of reach of any run.
* A policy is a total function: a nil policy, a nil map or a policy that
  panics are outside the model.
* Every method returns an `Outcome`: the struct after the call, the returned
  value, and a log of what the method body did (each delegation
  `c.evictionAlgo.evict(c)` made by `Evict`, each map write).  The log is kept
  outside the struct, so that no policy can alter it.
-/

namespace Strategy

/-- Go's `map[string]string`. -/
abbrev Storage : Type := Finmap (fun _ : String => String)

/-- The struct `Cache` of cache.go; `P` is the type of the policy objects
that the interface-typed field `evictionAlgo` can hold. -/
structure Cache (P : Type) where
  storage : Storage
  evictionAlgo : P
  capacity : Int
  maxCapacity : Int

/-- Equality of structs is decided field by field. -/
instance {P : Type} [DecidableEq P] : DecidableEq (Cache P) :=
  fun a b =>
    decidable_of_iff
      (a.storage = b.storage ∧ a.evictionAlgo = b.evictionAlgo ∧
        a.capacity = b.capacity ∧ a.maxCapacity = b.maxCapacity)
      (by cases a; cases b; simp)

/-- The interface `EvictionAlgo` of cache.go, with its single method
`evict(c *Cache)`: called on the receiver `e`, it mutates the struct. -/
class EvictionAlgo (P : Type) where
  evict : P → Cache P → Cache P

/-- The two observable steps of the method bodies of `Cache`. -/
inductive Event (P : Type) where
  /-- One run of `Evict`: the delegation `c.evictionAlgo.evict(c)` with
  receiver `algo` (followed by `c.capacity--`). -/
  | evict (algo : P)
  /-- The map write `c.storage[key] = value`. -/
  | store (key value : String)
deriving DecidableEq

/-- Whether the event is a delegation to the policy. -/
def Event.isEvict {P : Type} : Event P → Bool
  | Event.evict _ => true
  | Event.store _ _ => false

/-- Number of delegations to the policy in a log. -/
def evictCount {P : Type} (log : List (Event P)) : Nat :=
  (log.filter Event.isEvict).length

/-- The result of a method call: the struct afterwards, the value returned
(`Unit` for the methods without a result) and the log of the call. -/
structure Outcome (P : Type) (α : Type) where
  cache : Cache P
  ret : α
  log : List (Event P)

/-- The constructor `InitCache`: empty map, the given policy, `capacity` 0,
`maxCapacity` 2. -/
def InitCache {P : Type} (e : P) : Cache P :=
  { storage := ∅, evictionAlgo := e, capacity := 0, maxCapacity := 2 }

/-- The method `SetEvictionAlgo`: `c.evictionAlgo = e`. -/
def SetEvictionAlgo {P : Type} (c : Cache P) (e : P) : Outcome P Unit :=
  { cache := { c with evictionAlgo := e }, ret := (), log := [] }

/-- The method `Evict`: `c.evictionAlgo.evict(c)` and then `c.capacity--`,
with no test of any kind before either statement and no result. -/
def Evict {P : Type} [EvictionAlgo P] (c : Cache P) : Outcome P Unit :=
  let c1 := EvictionAlgo.evict c.evictionAlgo c
  { cache := { c1 with capacity := c1.capacity - 1 },
    ret := (),
    log := [Event.evict c.evictionAlgo] }

/-- The method `Add`: `Evict` when `capacity == maxCapacity`, then
`c.capacity++`, then `c.storage[key] = value`.  The body never looks the key
up. -/
def Add {P : Type} [EvictionAlgo P] (c : Cache P) (key value : String) :
    Outcome P Unit :=
  let r : Outcome P Unit :=
    if c.capacity = c.maxCapacity then Evict c else { cache := c, ret := (), log := [] }
  { cache := { r.cache with
      capacity := r.cache.capacity + 1,
      storage := r.cache.storage.insert key value },
    ret := (),
    log := r.log ++ [Event.store key value] }

/-- The method `Get`: `return c.storage[key]`, a single string (the zero
value `""` for a key that is not there); nothing is written. -/
def Get {P : Type} (c : Cache P) (key : String) : Outcome P String :=
  { cache := c, ret := (c.storage.lookup key).getD "", log := [] }

/-- A call of one of the four public methods. -/
inductive Op (P : Type) where
  | add (key value : String)
  | get (key : String)
  | setEvictionAlgo (e : P)
  | evict

/-- The struct and the log after one call. -/
def Op.exec {P : Type} [EvictionAlgo P] (c : Cache P) : Op P → Cache P × List (Event P)
  | Op.add key value => ((Add c key value).cache, (Add c key value).log)
  | Op.get key => ((Get c key).cache, (Get c key).log)
  | Op.setEvictionAlgo e => ((SetEvictionAlgo c e).cache, (SetEvictionAlgo c e).log)
  | Op.evict => ((Evict c).cache, (Evict c).log)

/-- A sequence of calls, left to right, with the concatenated log. -/
def run {P : Type} [EvictionAlgo P] : Cache P → List (Op P) → Cache P × List (Event P)
  | c, [] => (c, [])
  | c, op :: ops =>
    let r1 := op.exec c
    let r2 := run r1.1 ops
    (r2.1, r1.2 ++ r2.2)

/-- Whether the call is `Add` or `Get`. -/
def Op.isAddOrGet {P : Type} : Op P → Bool
  | Op.add _ _ => true
  | Op.get _ => true
  | Op.setEvictionAlgo _ => false
  | Op.evict => false

/-- Whether every `Add` of the sequence, run from `c`, is for a key that is
not stored at the moment of the call. -/
def freshAdds {P : Type} [EvictionAlgo P] : Cache P → List (Op P) → Bool
  | _, [] => true
  | c, Op.add key value :: ops =>
    decide (key ∉ c.storage) && freshAdds (Add c key value).cache ops
  | c, Op.get key :: ops => freshAdds (Get c key).cache ops
  | c, Op.setEvictionAlgo e :: ops => freshAdds (SetEvictionAlgo c e).cache ops
  | c, Op.evict :: ops => freshAdds (Evict c).cache ops

/-- Whether every direct `Evict` of the sequence, run from `c`, is called
while `capacity` is positive. -/
def guardedEvicts {P : Type} [EvictionAlgo P] : Cache P → List (Op P) → Bool
  | _, [] => true
  | c, Op.add key value :: ops => guardedEvicts (Add c key value).cache ops
  | c, Op.get key :: ops => guardedEvicts (Get c key).cache ops
  | c, Op.setEvictionAlgo e :: ops => guardedEvicts (SetEvictionAlgo c e).cache ops
  | c, Op.evict :: ops => decide (0 < c.capacity) && guardedEvicts (Evict c).cache ops

/-- The calls `Add(k, v)` for the pairs of a list, in order. -/
def addOps {P : Type} (kvs : List (String × String)) : List (Op P) :=
  kvs.map (fun kv => Op.add kv.1 kv.2)

/-- The contract of a well-behaved policy: a call of `evict` deletes exactly
one stored key when the map is non-empty, leaves an empty map empty, and
keeps `capacity` and `maxCapacity`.  The policy object itself (the field
`evictionAlgo`) is free to change, which covers policies with local state. -/
def RemovesOneKey (P : Type) [EvictionAlgo P] : Prop :=
  ∀ (e : P) (c : Cache P),
    (EvictionAlgo.evict e c).capacity = c.capacity ∧
    (EvictionAlgo.evict e c).maxCapacity = c.maxCapacity ∧
    (c.storage = ∅ → (EvictionAlgo.evict e c).storage = ∅) ∧
    (c.storage ≠ ∅ → ∃ k, k ∈ c.storage ∧ (EvictionAlgo.evict e c).storage = c.storage.erase k)

/-! ## A concrete policy

cache.go declares only the interface.  The theorems below are instantiated
with the following implementation, which deletes the least stored key. -/

/-- Character codes of a key. -/
def keyCode (s : String) : List Nat := s.data.map Char.toNat

/-- Keys ordered by their character codes, lexicographically. -/
def keyOrder : LinearOrder String :=
  LinearOrder.lift' keyCode (fun _ _ h =>
    String.ext
      (List.map_injective_iff.mpr (fun _ _ hxy => Char.ext (UInt32.ext hxy)) h))

/-- The least stored key, if there is one. -/
def leastKey (s : Storage) : Option String := @Finset.min String keyOrder s.keys

/-- A policy object without fields. -/
inductive LeastKey where
  | mk
deriving DecidableEq

/-- The method `evict` of `LeastKey`: `delete(c.storage, k)` for the least
stored key `k`; nothing happens on an empty map. -/
def LeastKey.evict (c : Cache LeastKey) : Cache LeastKey :=
  match leastKey c.storage with
  | some k => { c with storage := c.storage.erase k }
  | none => c

instance : EvictionAlgo LeastKey where
  evict := fun _ c => LeastKey.evict c

/-- The struct after `InitCache(p); Add("a","1")`. -/
def cacheA : Cache LeastKey :=
  (run (InitCache LeastKey.mk) [Op.add "a" "1"]).1

/-- The struct after `InitCache(p); Add("a","1"); Add("b","2")`. -/
def cacheAB : Cache LeastKey :=
  (run (InitCache LeastKey.mk) [Op.add "a" "1", Op.add "b" "2"]).1

/-- A struct whose map holds the empty string under the key `"a"`. -/
def cacheEmptyValue : Cache LeastKey :=
  (run (InitCache LeastKey.mk) [Op.add "a" ""]).1

/-! ## Shared lemmas -/

section Lemmas

variable {P : Type}

theorem keys_insert (s : Storage) (k v : String) :
    (s.insert k v).keys = insert k s.keys := by
  ext x
  simp [Finmap.mem_keys, Finmap.mem_insert]

theorem card_insert_of_absent (s : Storage) (k v : String) (h : k ∉ s) :
    (s.insert k v).keys.card = s.keys.card + 1 := by
  rw [keys_insert]
  exact Finset.card_insert_of_not_mem (fun hk => h (Finmap.mem_keys.mp hk))

theorem card_insert_le (s : Storage) (k v : String) :
    (s.insert k v).keys.card ≤ s.keys.card + 1 := by
  rw [keys_insert]
  exact Finset.card_insert_le k s.keys

theorem card_erase_of_present (s : Storage) (k : String) (h : k ∈ s) :
    (s.erase k).keys.card = s.keys.card - 1 := by
  rw [Finmap.keys_erase]
  exact Finset.card_erase_of_mem (Finmap.mem_keys.mpr h)

theorem card_pos_of_present (s : Storage) (k : String) (h : k ∈ s) :
    0 < s.keys.card :=
  Finset.card_pos.mpr ⟨k, Finmap.mem_keys.mpr h⟩

theorem storage_eq_empty_of_card (s : Storage) (h : s.keys.card = 0) : s = ∅ := by
  apply Finmap.ext_lookup
  intro x
  have hx : x ∉ s := by
    intro hmem
    have := card_pos_of_present s x hmem
    omega
  rw [Finmap.lookup_eq_none.mpr hx, Finmap.lookup_empty]

theorem Add_lookup [EvictionAlgo P] (c : Cache P) (key value : String) :
    (Add c key value).cache.storage.lookup key = some value := by
  simp [Add, Finmap.lookup_insert]

theorem Add_of_full [EvictionAlgo P] (c : Cache P) (key value : String)
    (h : c.capacity = c.maxCapacity) :
    Add c key value =
      { cache := { (Evict c).cache with
          capacity := (Evict c).cache.capacity + 1,
          storage := (Evict c).cache.storage.insert key value },
        ret := (),
        log := [Event.evict c.evictionAlgo, Event.store key value] } := by
  simp [Add, h, Evict]

theorem Add_of_not_full [EvictionAlgo P] (c : Cache P) (key value : String)
    (h : c.capacity ≠ c.maxCapacity) :
    Add c key value =
      { cache := { c with
          capacity := c.capacity + 1,
          storage := c.storage.insert key value },
        ret := (),
        log := [Event.store key value] } := by
  simp [Add, h]

theorem run_append [EvictionAlgo P] (c : Cache P) (xs ys : List (Op P)) :
    run c (xs ++ ys) = ((run (run c xs).1 ys).1, (run c xs).2 ++ (run (run c xs).1 ys).2) := by
  induction xs generalizing c with
  | nil => simp [run]
  | cons op xs ih => simp [run, ih, List.append_assoc]

theorem run_get_cons [EvictionAlgo P] (c : Cache P) (key : String) (ops : List (Op P)) :
    run c (Op.get key :: ops) = run c ops := by
  simp [run, Op.exec, Get]

theorem leastKey_eq_none (s : Storage) (h : leastKey s = none) : s = ∅ := by
  have hk : s.keys = ∅ := (@Finset.min_eq_top String keyOrder s.keys).mp h
  exact storage_eq_empty_of_card s (by simp [hk])

theorem leastKey_mem (s : Storage) (k : String) (h : leastKey s = some k) : k ∈ s :=
  Finmap.mem_keys.mp (@Finset.mem_of_min String keyOrder s.keys k h)

/-- The least-key policy meets the contract `RemovesOneKey`. -/
theorem leastKey_removesOneKey : RemovesOneKey LeastKey := by
  intro e c
  show (LeastKey.evict c).capacity = c.capacity ∧ (LeastKey.evict c).maxCapacity = c.maxCapacity ∧
    (c.storage = ∅ → (LeastKey.evict c).storage = ∅) ∧
    (c.storage ≠ ∅ → ∃ k, k ∈ c.storage ∧ (LeastKey.evict c).storage = c.storage.erase k)
  unfold LeastKey.evict
  cases hk : leastKey c.storage with
  | none =>
    have hempty := leastKey_eq_none c.storage hk
    exact ⟨rfl, rfl, fun h => h, fun hne => absurd hempty hne⟩
  | some k =>
    have hmem := leastKey_mem c.storage k hk
    refine ⟨rfl, rfl, fun h => ?_, fun _ => ⟨k, hmem, rfl⟩⟩
    rw [h] at hmem
    exact absurd hmem Finmap.not_mem_empty

theorem evictCount_append (xs ys : List (Event P)) :
    evictCount (xs ++ ys) = evictCount xs + evictCount ys := by
  simp [evictCount, List.filter_append]

theorem policy_card [EvictionAlgo P] (hP : RemovesOneKey P) (e : P) (c : Cache P) :
    (EvictionAlgo.evict e c).storage.keys.card = c.storage.keys.card - 1 := by
  obtain ⟨_, _, hempty, hne⟩ := hP e c
  by_cases h : c.storage = ∅
  · rw [hempty h, h]
    rfl
  · obtain ⟨k, hk, hst⟩ := hne h
    rw [hst, card_erase_of_present c.storage k hk]

theorem policy_subset [EvictionAlgo P] (hP : RemovesOneKey P) (e : P) (c : Cache P)
    (x : String) (hx : x ∈ (EvictionAlgo.evict e c).storage) : x ∈ c.storage := by
  obtain ⟨_, _, hempty, hne⟩ := hP e c
  by_cases h : c.storage = ∅
  · rw [hempty h] at hx
    exact absurd hx Finmap.not_mem_empty
  · obtain ⟨k, _, hst⟩ := hne h
    rw [hst] at hx
    exact (Finmap.mem_erase.mp hx).2

/-- One `Add` keeps the bound `card ≤ capacity`, `0 ≤ capacity ≤ maxCapacity`
when `maxCapacity` is positive, whether or not the key is already stored. -/
theorem Add_keeps_bound [EvictionAlgo P] (hP : RemovesOneKey P) (c : Cache P)
    (key value : String)
    (hcard : (c.storage.keys.card : Int) ≤ c.capacity) (hcap : c.capacity ≤ c.maxCapacity)
    (hmax : 0 < c.maxCapacity) :
    ((Add c key value).cache.storage.keys.card : Int) ≤ (Add c key value).cache.capacity ∧
    0 ≤ (Add c key value).cache.capacity ∧
    (Add c key value).cache.capacity ≤ (Add c key value).cache.maxCapacity ∧
    (Add c key value).cache.maxCapacity = c.maxCapacity := by
  by_cases hfull : c.capacity = c.maxCapacity
  · rw [Add_of_full c key value hfull]
    have h1 := (hP c.evictionAlgo c).1
    have h2 := (hP c.evictionAlgo c).2.1
    have h3 := policy_card hP c.evictionAlgo c
    have h4 := card_insert_le (EvictionAlgo.evict c.evictionAlgo c).storage key value
    simp only [Evict]
    omega
  · rw [Add_of_not_full c key value hfull]
    have h4 := card_insert_le c.storage key value
    simp only [and_true]
    omega

/-- One `Add` of a key that is not stored, on a struct whose `capacity` is
the number of stored keys and at most `maxCapacity = N > 0`. -/
theorem Add_fresh [EvictionAlgo P] (hP : RemovesOneKey P) (N : Nat) (hN : 0 < N)
    (c : Cache P) (key value : String)
    (hmax : c.maxCapacity = N) (hcap : c.capacity = c.storage.keys.card)
    (hle : c.storage.keys.card ≤ N) (hkey : key ∉ c.storage) :
    (Add c key value).cache.maxCapacity = N ∧
    (Add c key value).cache.capacity = (Add c key value).cache.storage.keys.card ∧
    (Add c key value).cache.storage.keys.card = min N (c.storage.keys.card + 1) ∧
    evictCount (Add c key value).log = (if c.storage.keys.card = N then 1 else 0) ∧
    (∀ x, x ∈ (Add c key value).cache.storage → x = key ∨ x ∈ c.storage) := by
  by_cases hfull : c.capacity = c.maxCapacity
  · rw [Add_of_full c key value hfull]
    have h1 := (hP c.evictionAlgo c).1
    have h2 := (hP c.evictionAlgo c).2.1
    have h3 := policy_card hP c.evictionAlgo c
    have hkey2 : key ∉ (EvictionAlgo.evict c.evictionAlgo c).storage :=
      fun hx => hkey (policy_subset hP c.evictionAlgo c key hx)
    have h4 := card_insert_of_absent (EvictionAlgo.evict c.evictionAlgo c).storage key value hkey2
    have hcN : c.storage.keys.card = N := by omega
    simp only [Evict, hcN, if_true]
    refine ⟨by omega, by omega, by omega, rfl, fun x hx => ?_⟩
    rcases Finmap.mem_insert.mp hx with h | h
    · exact Or.inl h
    · exact Or.inr (policy_subset hP c.evictionAlgo c x h)
  · rw [Add_of_not_full c key value hfull]
    have h4 := card_insert_of_absent c.storage key value hkey
    have hcN : c.storage.keys.card ≠ N := by omega
    simp only [hcN, if_false]
    refine ⟨by omega, by omega, by omega, rfl, fun x hx => ?_⟩
    exact Finmap.mem_insert.mp hx

/-- Adding pairwise distinct keys, none of them stored, to a struct whose
`capacity` is the number of stored keys: the map fills up to `N` keys and
every further `Add` evicts once. -/
theorem addOps_fresh [EvictionAlgo P] (hP : RemovesOneKey P) (N : Nat) (hN : 0 < N)
    (kvs : List (String × String)) :
    ∀ c : Cache P, c.maxCapacity = N → c.capacity = c.storage.keys.card →
      c.storage.keys.card ≤ N → (kvs.map Prod.fst).Nodup →
      (∀ kv ∈ kvs, kv.1 ∉ c.storage) →
      (run c (addOps kvs)).1.maxCapacity = N ∧
      (run c (addOps kvs)).1.capacity = (run c (addOps kvs)).1.storage.keys.card ∧
      (run c (addOps kvs)).1.storage.keys.card = min N (c.storage.keys.card + kvs.length) ∧
      evictCount (run c (addOps kvs)).2 = c.storage.keys.card + kvs.length - N := by
  induction kvs with
  | nil =>
    intro c hmax hcap hle _ _
    simp only [addOps, List.map_nil, run, List.length_nil]
    refine ⟨hmax, hcap, by omega, ?_⟩
    simp only [evictCount, List.filter_nil, List.length_nil]
    omega
  | cons kv rest ih =>
    intro c hmax hcap hle hnd hfresh
    have hkv : kv.1 ∉ c.storage := hfresh kv (List.mem_cons_self kv rest)
    obtain ⟨a1, a2, a3, a4, a5⟩ := Add_fresh hP N hN c kv.1 kv.2 hmax hcap hle hkv
    rw [List.map_cons, List.nodup_cons] at hnd
    have hfresh2 : ∀ kv2 ∈ rest, kv2.1 ∉ (Add c kv.1 kv.2).cache.storage := by
      intro kv2 hkv2 hx
      rcases a5 kv2.1 hx with h | h
      · exact hnd.1 (h ▸ List.mem_map_of_mem Prod.fst hkv2)
      · exact hfresh kv2 (List.mem_cons_of_mem kv hkv2) h
    obtain ⟨b1, b2, b3, b4⟩ :=
      ih (Add c kv.1 kv.2).cache a1 a2 (by rw [a3]; exact Nat.min_le_left _ _) hnd.2 hfresh2
    have hrun : run c (addOps (kv :: rest)) =
        ((run (Add c kv.1 kv.2).cache (addOps rest)).1,
          (Add c kv.1 kv.2).log ++ (run (Add c kv.1 kv.2).cache (addOps rest)).2) := rfl
    rw [hrun]
    simp only [evictCount_append, List.length_cons]
    refine ⟨b1, b2, ?_, ?_⟩
    · rw [b3, a3]; omega
    · rw [b4, a4, a3]
      split <;> omega

/-- A run of `Add` and `Get` calls keeps the bound `card ≤ capacity`,
`0 ≤ capacity ≤ maxCapacity` and does not touch `maxCapacity`. -/
theorem run_addGet_keeps_bound [EvictionAlgo P] (hP : RemovesOneKey P) (ops : List (Op P)) :
    ∀ c : Cache P, ops.all Op.isAddOrGet = true →
      (c.storage.keys.card : Int) ≤ c.capacity → 0 ≤ c.capacity →
      c.capacity ≤ c.maxCapacity → 0 < c.maxCapacity →
      ((run c ops).1.storage.keys.card : Int) ≤ (run c ops).1.capacity ∧
      0 ≤ (run c ops).1.capacity ∧
      (run c ops).1.capacity ≤ (run c ops).1.maxCapacity ∧
      (run c ops).1.maxCapacity = c.maxCapacity := by
  induction ops with
  | nil =>
    intro c _ h1 h2 h3 _
    exact ⟨h1, h2, h3, rfl⟩
  | cons op rest ih =>
    intro c hall h1 h2 h3 h4
    rw [List.all_cons, Bool.and_eq_true] at hall
    cases op with
    | add key value =>
      obtain ⟨a1, a2, a3, a4⟩ := Add_keeps_bound hP c key value h1 h3 h4
      obtain ⟨b1, b2, b3, b4⟩ := ih (Add c key value).cache hall.2 a1 a2 a3 (by rw [a4]; exact h4)
      exact ⟨b1, b2, b3, b4.trans a4⟩
    | get key => exact ih c hall.2 h1 h2 h3 h4
    | setEvictionAlgo e => exact absurd hall.1 (by simp [Op.isAddOrGet])
    | evict => exact absurd hall.1 (by simp [Op.isAddOrGet])

/-- With keys that are not stored when added, `capacity` never exceeds the
number of stored keys, whatever else is called. -/
theorem run_fresh_keeps_le [EvictionAlgo P] (hP : RemovesOneKey P) (ops : List (Op P)) :
    ∀ c : Cache P, freshAdds c ops = true →
      c.capacity ≤ (c.storage.keys.card : Int) → c.capacity ≤ c.maxCapacity →
      0 < c.maxCapacity →
      (run c ops).1.capacity ≤ ((run c ops).1.storage.keys.card : Int) ∧
      (run c ops).1.capacity ≤ (run c ops).1.maxCapacity ∧
      (run c ops).1.maxCapacity = c.maxCapacity := by
  induction ops with
  | nil =>
    intro c _ h1 h2 _
    exact ⟨h1, h2, rfl⟩
  | cons op rest ih =>
    intro c hfresh h1 h2 h3
    cases op with
    | add key value =>
      simp only [freshAdds, Bool.and_eq_true, decide_eq_true_eq] at hfresh
      have hstep : (Add c key value).cache.capacity
            ≤ ((Add c key value).cache.storage.keys.card : Int) ∧
          (Add c key value).cache.capacity ≤ (Add c key value).cache.maxCapacity ∧
          (Add c key value).cache.maxCapacity = c.maxCapacity := by
        by_cases hfull : c.capacity = c.maxCapacity
        · rw [Add_of_full c key value hfull]
          have p1 := (hP c.evictionAlgo c).1
          have p2 := (hP c.evictionAlgo c).2.1
          have p3 := policy_card hP c.evictionAlgo c
          have p4 := card_insert_of_absent (EvictionAlgo.evict c.evictionAlgo c).storage
            key value (fun hx => hfresh.1 (policy_subset hP c.evictionAlgo c key hx))
          simp only [Evict]
          omega
        · rw [Add_of_not_full c key value hfull]
          have p4 := card_insert_of_absent c.storage key value hfresh.1
          simp only [and_true]
          omega
      obtain ⟨a1, a2, a3⟩ := hstep
      obtain ⟨b1, b2, b3⟩ := ih (Add c key value).cache hfresh.2 a1 a2 (by rw [a3]; exact h3)
      exact ⟨b1, b2, b3.trans a3⟩
    | get key => exact ih c hfresh h1 h2 h3
    | setEvictionAlgo e => exact ih (SetEvictionAlgo c e).cache hfresh h1 h2 h3
    | evict =>
      have p1 := (hP c.evictionAlgo c).1
      have p2 := (hP c.evictionAlgo c).2.1
      have p3 := policy_card hP c.evictionAlgo c
      have a1 : (Evict c).cache.capacity ≤ ((Evict c).cache.storage.keys.card : Int) := by
        simp only [Evict]
        omega
      have a2 : (Evict c).cache.capacity ≤ (Evict c).cache.maxCapacity := by
        simp only [Evict]
        omega
      have a3 : (Evict c).cache.maxCapacity = c.maxCapacity := p2
      obtain ⟨b1, b2, b3⟩ := ih (Evict c).cache hfresh a1 a2 (by rw [a3]; exact h3)
      exact ⟨b1, b2, b3.trans a3⟩

/-- With keys that are not stored when added and `Evict` called only at a
positive `capacity`, `capacity` is the number of stored keys. -/
theorem run_fresh_guarded_keeps_eq [EvictionAlgo P] (hP : RemovesOneKey P) (N : Nat)
    (hN : 0 < N) (ops : List (Op P)) :
    ∀ c : Cache P, freshAdds c ops = true → guardedEvicts c ops = true →
      c.maxCapacity = N → c.capacity = c.storage.keys.card → c.storage.keys.card ≤ N →
      (run c ops).1.capacity = (run c ops).1.storage.keys.card ∧
      (run c ops).1.storage.keys.card ≤ N := by
  induction ops with
  | nil =>
    intro c _ _ _ h2 h3
    exact ⟨h2, h3⟩
  | cons op rest ih =>
    intro c hfresh hguard h1 h2 h3
    cases op with
    | add key value =>
      simp only [freshAdds, Bool.and_eq_true, decide_eq_true_eq] at hfresh
      obtain ⟨a1, a2, a3, _, _⟩ := Add_fresh hP N hN c key value h1 h2 h3 hfresh.1
      exact ih (Add c key value).cache hfresh.2 hguard a1 a2
        (by rw [a3]; exact Nat.min_le_left _ _)
    | get key => exact ih c hfresh hguard h1 h2 h3
    | setEvictionAlgo e => exact ih (SetEvictionAlgo c e).cache hfresh hguard h1 h2 h3
    | evict =>
      simp only [guardedEvicts, Bool.and_eq_true, decide_eq_true_eq] at hguard
      have p1 := (hP c.evictionAlgo c).1
      have p2 := (hP c.evictionAlgo c).2.1
      have p3 := policy_card hP c.evictionAlgo c
      have a1 : (Evict c).cache.maxCapacity = N := by
        simp only [Evict]
        omega
      have a2 : (Evict c).cache.capacity = (Evict c).cache.storage.keys.card := by
        simp only [Evict]
        omega
      have a3 : (Evict c).cache.storage.keys.card ≤ N := by
        simp only [Evict]
        omega
      exact ih (Evict c).cache hfresh hguard.2 a1 a2 a3

end Lemmas

/-! ## The claims -/

/-- C7 (round trip): in every state and under every policy, `Get(key)` right
after `Add(key, value)` returns `value`; the eviction that `Add` may perform
comes before the map write and so cannot remove the entry being added. -/
theorem get_after_add {P : Type} [EvictionAlgo P] (c : Cache P) (key value : String) :
    (Get (Add c key value).cache key).ret = value := by
  simp [Get, Add_lookup]

/-- C8 (frame of `Get` and `SetEvictionAlgo`): `Get` leaves the map,
`capacity` and `maxCapacity` as they were; `SetEvictionAlgo(e)` changes the
field `evictionAlgo` to `e` and nothing else, and the next `Evict` delegates
to `e`. -/
theorem get_and_setEvictionAlgo_frame {P : Type} [EvictionAlgo P]
    (c : Cache P) (key : String) (e : P) :
    ((Get c key).cache.storage = c.storage ∧
      (Get c key).cache.capacity = c.capacity ∧
      (Get c key).cache.maxCapacity = c.maxCapacity) ∧
    ((SetEvictionAlgo c e).cache.storage = c.storage ∧
      (SetEvictionAlgo c e).cache.capacity = c.capacity ∧
      (SetEvictionAlgo c e).cache.maxCapacity = c.maxCapacity ∧
      (SetEvictionAlgo c e).cache.evictionAlgo = e) ∧
    ((Evict (SetEvictionAlgo c e).cache).log = [Event.evict e] ∧
      (Evict (SetEvictionAlgo c e).cache).cache =
        { EvictionAlgo.evict e { c with evictionAlgo := e } with
          capacity := (EvictionAlgo.evict e { c with evictionAlgo := e }).capacity - 1 }) :=
  ⟨⟨rfl, rfl, rfl⟩, ⟨rfl, rfl, rfl, rfl⟩, rfl, rfl⟩

/-- C9 (`Add` of an absent key): when `capacity == maxCapacity` the log of
`Add` is one `Evict`, delegating to the active policy, followed by the map
write, and the struct is the one that the active policy's `evict` returned
for `c`, with `capacity--` and then the insertion step applied to it; when
`capacity < maxCapacity` the log is the map write alone, the policy's result
plays no part and the map gains one key.  In both cases the key is then
stored with the value, and `capacity` is one more than just before the
insertion step (the policy's value minus one when `Evict` ran, the old value
otherwise). -/
theorem add_absent_key {P : Type} [EvictionAlgo P] (c : Cache P) (key value : String)
    (habs : key ∉ c.storage) :
    (c.capacity = c.maxCapacity →
      (Add c key value).log = [Event.evict c.evictionAlgo, Event.store key value] ∧
      evictCount (Add c key value).log = 1 ∧
      (Evict c).cache =
        { EvictionAlgo.evict c.evictionAlgo c with
          capacity := (EvictionAlgo.evict c.evictionAlgo c).capacity - 1 } ∧
      (Add c key value).cache.storage =
        (EvictionAlgo.evict c.evictionAlgo c).storage.insert key value ∧
      (Add c key value).cache.capacity =
        ((EvictionAlgo.evict c.evictionAlgo c).capacity - 1) + 1 ∧
      (Add c key value).cache.maxCapacity =
        (EvictionAlgo.evict c.evictionAlgo c).maxCapacity ∧
      (Add c key value).cache.evictionAlgo =
        (EvictionAlgo.evict c.evictionAlgo c).evictionAlgo ∧
      (Add c key value).cache.storage = (Evict c).cache.storage.insert key value ∧
      (Add c key value).cache.capacity = (Evict c).cache.capacity + 1) ∧
    (c.capacity < c.maxCapacity →
      (Add c key value).log = [Event.store key value] ∧
      evictCount (Add c key value).log = 0 ∧
      (Add c key value).cache.storage = c.storage.insert key value ∧
      (Add c key value).cache.storage.keys.card = c.storage.keys.card + 1 ∧
      (Add c key value).cache.capacity = c.capacity + 1 ∧
      (Add c key value).cache.maxCapacity = c.maxCapacity ∧
      (Add c key value).cache.evictionAlgo = c.evictionAlgo) ∧
    (Add c key value).cache.storage.lookup key = some value := by
  refine ⟨fun hfull => ?_, fun hlt => ?_, Add_lookup c key value⟩
  · rw [Add_of_full c key value hfull]
    exact ⟨rfl, rfl, rfl, rfl, rfl, rfl, rfl, rfl, rfl⟩
  · rw [Add_of_not_full c key value (ne_of_lt hlt)]
    exact ⟨rfl, rfl, rfl, card_insert_of_absent c.storage key value habs, rfl, rfl, rfl⟩

/-- Witness of C9: `"b"` is absent from the struct holding `"a"`, which is not
full; `"c"` is absent from the struct holding `"a"` and `"b"`, which is full:
there the least-key policy deletes `"a"`, so `Add("c","3")` ends with `"b"`
and `"c"` stored and `capacity` 2 - 1 + 1. -/
theorem add_absent_key_witness :
    ("b" ∉ cacheA.storage ∧ cacheA.capacity < cacheA.maxCapacity ∧
      (Add cacheA "b" "2").log = [Event.store "b" "2"] ∧
      evictCount (Add cacheA "b" "2").log = 0 ∧
      (Add cacheA "b" "2").cache.storage = cacheA.storage.insert "b" "2" ∧
      (Add cacheA "b" "2").cache.storage.keys.card = cacheA.storage.keys.card + 1 ∧
      (Add cacheA "b" "2").cache.capacity = cacheA.capacity + 1 ∧
      (Add cacheA "b" "2").cache.maxCapacity = cacheA.maxCapacity ∧
      (Add cacheA "b" "2").cache.evictionAlgo = cacheA.evictionAlgo) ∧
    ("c" ∉ cacheAB.storage ∧ cacheAB.capacity = cacheAB.maxCapacity ∧
      (EvictionAlgo.evict LeastKey.mk cacheAB).storage = Finmap.singleton "b" "2" ∧
      (EvictionAlgo.evict LeastKey.mk cacheAB).capacity = 2 ∧
      (Add cacheAB "c" "3").cache.storage
        = Finmap.insert "b" "2" (Finmap.singleton "c" "3") ∧
      (Add cacheAB "c" "3").cache.capacity = 2 ∧
      (Add cacheAB "c" "3").log = [Event.evict LeastKey.mk, Event.store "c" "3"] ∧
      evictCount (Add cacheAB "c" "3").log = 1 ∧
      (Evict cacheAB).cache =
        { EvictionAlgo.evict cacheAB.evictionAlgo cacheAB with
          capacity := (EvictionAlgo.evict cacheAB.evictionAlgo cacheAB).capacity - 1 } ∧
      (Add cacheAB "c" "3").cache.storage =
        (EvictionAlgo.evict cacheAB.evictionAlgo cacheAB).storage.insert "c" "3" ∧
      (Add cacheAB "c" "3").cache.capacity =
        ((EvictionAlgo.evict cacheAB.evictionAlgo cacheAB).capacity - 1) + 1 ∧
      (Add cacheAB "c" "3").cache.maxCapacity =
        (EvictionAlgo.evict cacheAB.evictionAlgo cacheAB).maxCapacity ∧
      (Add cacheAB "c" "3").cache.evictionAlgo =
        (EvictionAlgo.evict cacheAB.evictionAlgo cacheAB).evictionAlgo ∧
      (Add cacheAB "c" "3").cache.storage = (Evict cacheAB).cache.storage.insert "c" "3" ∧
      (Add cacheAB "c" "3").cache.capacity = (Evict cacheAB).cache.capacity + 1) ∧
    (Add cacheAB "c" "3").cache.storage.lookup "c" = some "3" :=
  ⟨⟨by decide, by decide, (add_absent_key cacheA "b" "2" (by decide)).2.1 (by decide)⟩,
    ⟨by decide, by decide, by decide, by decide, by decide, by decide,
      (add_absent_key cacheAB "c" "3" (by decide)).1 (by decide)⟩,
    (add_absent_key cacheAB "c" "3" (by decide)).2.2⟩

/-- C1 (overwrite), the code at the failing inputs.  `Add("a","2")` on the
struct that already holds `"a"` raises `capacity` from 1 to 2 while the map
keeps its single key; `Add("b","9")` on the full struct holding `"a"` and
`"b"` runs `Evict`, which under the least-key policy deletes `"a"`, so the
overwrite of `"b"` costs the entry `"a"`. -/
theorem add_present_key_counts_and_evicts :
    ("a" ∈ cacheA.storage ∧ cacheA.capacity = 1 ∧
      (Add cacheA "a" "2").cache.capacity = 2 ∧
      (Add cacheA "a" "2").cache.storage.keys.card = 1) ∧
    ("b" ∈ cacheAB.storage ∧ "a" ∈ cacheAB.storage ∧
      cacheAB.capacity = cacheAB.maxCapacity ∧
      (Add cacheAB "b" "9").log = [Event.evict LeastKey.mk, Event.store "b" "9"] ∧
      (Add cacheAB "b" "9").cache.storage = Finmap.singleton "b" "9" ∧
      (Add cacheAB "b" "9").cache.capacity = 2) := by
  decide

/-- C2, refuted.  After a single `Evict` on a fresh cache `capacity` is -1,
below zero and below the number of stored keys; after
`Add("a","1"); Add("a","2")` on a fresh cache `capacity` is 2 and the map
holds one key. -/
theorem capacity_invariant_counterexample :
    ((run (InitCache LeastKey.mk) [Op.evict]).1.capacity = -1 ∧
      (run (InitCache LeastKey.mk) [Op.evict]).1.storage.keys.card = 0) ∧
    ((run (InitCache LeastKey.mk) [Op.add "a" "1", Op.add "a" "2"]).1.capacity = 2 ∧
      (run (InitCache LeastKey.mk) [Op.add "a" "1", Op.add "a" "2"]).1.storage.keys.card = 1) := by
  decide

/-- C2, amended.  From `InitCache`, under a policy that removes one stored key
per call on a non-empty map and changes nothing else, after every finite
sequence of `Add`, `Get`, `SetEvictionAlgo` and `Evict` calls in which every
`Add` is for a key not stored at that moment, `capacity` is at most the
number of stored keys and at most `maxCapacity = 2`; when moreover every
direct `Evict` is called at a positive `capacity`, `capacity` equals the
number of stored keys and `0 ≤ capacity ≤ maxCapacity`. -/
theorem capacity_counts_fresh_keys {P : Type} [EvictionAlgo P] (hP : RemovesOneKey P)
    (e : P) (ops : List (Op P)) (hfresh : freshAdds (InitCache e) ops = true) :
    ((run (InitCache e) ops).1.capacity ≤ ((run (InitCache e) ops).1.storage.keys.card : Int) ∧
      (run (InitCache e) ops).1.capacity ≤ (run (InitCache e) ops).1.maxCapacity ∧
      (run (InitCache e) ops).1.maxCapacity = 2) ∧
    (guardedEvicts (InitCache e) ops = true →
      (run (InitCache e) ops).1.capacity = (run (InitCache e) ops).1.storage.keys.card ∧
      0 ≤ (run (InitCache e) ops).1.capacity ∧
      (run (InitCache e) ops).1.capacity ≤ (run (InitCache e) ops).1.maxCapacity) := by
  have hle := run_fresh_keeps_le hP ops (InitCache e) hfresh (by simp [InitCache])
    (by simp [InitCache]) (by simp [InitCache])
  refine ⟨⟨hle.1, hle.2.1, hle.2.2⟩, fun hguard => ?_⟩
  have heq := run_fresh_guarded_keeps_eq hP 2 (by decide) ops (InitCache e) hfresh hguard
    rfl (by simp [InitCache]) (by simp [InitCache])
  refine ⟨heq.1, by omega, hle.2.1⟩

/-- Witness of C2 amended: three fresh keys, a read, a change of policy object
and a direct `Evict` on the full cache, under the least-key policy. -/
theorem capacity_counts_fresh_keys_witness :
    RemovesOneKey LeastKey ∧
    freshAdds (InitCache LeastKey.mk)
      [Op.add "a" "1", Op.add "b" "2", Op.get "a", Op.add "c" "3",
        Op.setEvictionAlgo LeastKey.mk, Op.evict] = true ∧
    guardedEvicts (InitCache LeastKey.mk)
      [Op.add "a" "1", Op.add "b" "2", Op.get "a", Op.add "c" "3",
        Op.setEvictionAlgo LeastKey.mk, Op.evict] = true ∧
    (run (InitCache LeastKey.mk)
      [Op.add "a" "1", Op.add "b" "2", Op.get "a", Op.add "c" "3",
        Op.setEvictionAlgo LeastKey.mk, Op.evict]).1.capacity
      = (run (InitCache LeastKey.mk)
      [Op.add "a" "1", Op.add "b" "2", Op.get "a", Op.add "c" "3",
        Op.setEvictionAlgo LeastKey.mk, Op.evict]).1.storage.keys.card :=
  ⟨leastKey_removesOneKey, by decide, by decide,
    ((capacity_counts_fresh_keys leastKey_removesOneKey LeastKey.mk
      [Op.add "a" "1", Op.add "b" "2", Op.get "a", Op.add "c" "3",
        Op.setEvictionAlgo LeastKey.mk, Op.evict] (by decide)).2 (by decide)).1⟩

/-- C4, refuted.  No policy at all realises the scenario of the claim: there
is none under which `Add a; Add b; Get a; Add c` ends with exactly
`a` and `c` stored while `Add a; Add b; Add c` ends without `a`; and there is
no policy, state and key for which the struct after `Get` differs from the
struct before it. -/
theorem get_refreshes_recency_counterexample :
    (¬ ∃ (P : Type) (inst : EvictionAlgo P) (e : P),
      (@run P inst (InitCache e)
          [Op.add "a" "1", Op.add "b" "2", Op.get "a", Op.add "c" "3"]).1.storage
        = Finmap.insert "a" "1" (Finmap.singleton "c" "3") ∧
      "a" ∉ (@run P inst (InitCache e)
          [Op.add "a" "1", Op.add "b" "2", Op.add "c" "3"]).1.storage) ∧
    (¬ ∃ (P : Type) (c : Cache P) (key : String), (Get c key).cache ≠ c) := by
  constructor
  · rintro ⟨P, inst, e, h1, h2⟩
    apply h2
    have hsame : (@run P inst (InitCache e)
        [Op.add "a" "1", Op.add "b" "2", Op.add "c" "3"]).1.storage
        = Finmap.insert "a" "1" (Finmap.singleton "c" "3") := h1
    rw [hsame]
    decide
  · rintro ⟨P, c, key, h⟩
    exact h rfl

/-- C4, amended: `Get` is a pure read.  Under every policy and in every state
it returns the struct it was given and delegates nothing to the policy, so
taking a `Get` out of any sequence of calls changes neither the final struct
nor the log: the next eviction is the same with and without the read. -/
theorem get_is_pure_read {P : Type} [EvictionAlgo P] (c : Cache P) (key : String)
    (before after : List (Op P)) :
    (Get c key).cache = c ∧ (Get c key).log = [] ∧
    run c (before ++ Op.get key :: after) = run c (before ++ after) := by
  refine ⟨rfl, rfl, ?_⟩
  rw [run_append, run_append, run_get_cons]

/-- C5, refuted: `Evict` on a fresh cache (`capacity == 0`) reports nothing,
delegates to the policy all the same and leaves `capacity` at -1. -/
theorem evict_at_zero_counterexample :
    (InitCache LeastKey.mk).capacity = 0 ∧
    (Evict (InitCache LeastKey.mk)).log = [Event.evict LeastKey.mk] ∧
    (Evict (InitCache LeastKey.mk)).cache.capacity = -1 ∧
    (Evict (InitCache LeastKey.mk)).cache ≠ InitCache LeastKey.mk := by
  decide

/-- C5, amended: `Evict` has no error result and no guard.  In every state it
completes after exactly one delegation to the active policy, with `capacity`
one below the value the policy left and the other fields as the policy left
them.  Under a policy that keeps `capacity` the result is `capacity - 1`:
-1 when `capacity` was 0, non-negative when it was positive. -/
theorem evict_never_fails {P : Type} [EvictionAlgo P] (c : Cache P) :
    (Evict c).log = [Event.evict c.evictionAlgo] ∧
    (Evict c).cache.capacity = (EvictionAlgo.evict c.evictionAlgo c).capacity - 1 ∧
    (Evict c).cache.storage = (EvictionAlgo.evict c.evictionAlgo c).storage ∧
    (Evict c).cache.maxCapacity = (EvictionAlgo.evict c.evictionAlgo c).maxCapacity ∧
    (Evict c).cache.evictionAlgo = (EvictionAlgo.evict c.evictionAlgo c).evictionAlgo ∧
    (RemovesOneKey P →
      (Evict c).cache.capacity = c.capacity - 1 ∧
      (c.capacity = 0 → (Evict c).cache.capacity = -1) ∧
      (0 < c.capacity → 0 ≤ (Evict c).cache.capacity)) := by
  refine ⟨rfl, rfl, rfl, rfl, rfl, fun hP => ?_⟩
  have hcap : (Evict c).cache.capacity = c.capacity - 1 := by
    show (EvictionAlgo.evict c.evictionAlgo c).capacity - 1 = c.capacity - 1
    rw [(hP c.evictionAlgo c).1]
  exact ⟨hcap, fun h0 => by omega, fun hpos => by omega⟩

/-- Witness of C5 amended: under the least-key policy, the fresh cache
(`capacity` 0) and the full cache holding `"a"` and `"b"`. -/
theorem evict_never_fails_witness :
    RemovesOneKey LeastKey ∧
    ((InitCache LeastKey.mk).capacity = 0 ∧
      (Evict (InitCache LeastKey.mk)).cache.capacity = -1) ∧
    (0 < cacheAB.capacity ∧ 0 ≤ (Evict cacheAB).cache.capacity) :=
  ⟨leastKey_removesOneKey,
    ⟨rfl, ((evict_never_fails (InitCache LeastKey.mk)).2.2.2.2.2 leastKey_removesOneKey).2.1 rfl⟩,
    ⟨by decide, ((evict_never_fails cacheAB).2.2.2.2.2 leastKey_removesOneKey).2.2 (by decide)⟩⟩

/-- C6, refuted: `Get` of the present key `"a"`, stored with the empty string,
and `Get` of the absent key `"b"` return the same thing. -/
theorem get_found_indicator_counterexample :
    "a" ∈ cacheEmptyValue.storage ∧ "b" ∉ cacheEmptyValue.storage ∧
    (Get cacheEmptyValue "a").ret = (Get cacheEmptyValue "b").ret := by
  decide

/-- C6, amended: `Get` returns a single string and no indicator: the stored
value for a present key, the empty string for an absent one, never an error.
The result for an absent key differs from the result for a present key
exactly when the value stored under the present key is not empty. -/
theorem get_returns_value_or_empty {P : Type} (c : Cache P) (key : String) :
    (∀ v, c.storage.lookup key = some v → (Get c key).ret = v) ∧
    (key ∉ c.storage → (Get c key).ret = "") ∧
    (∀ other, key ∈ c.storage → other ∉ c.storage →
      ((Get c key).ret ≠ (Get c other).ret ↔ c.storage.lookup key ≠ some "")) := by
  refine ⟨fun v hv => ?_, fun habs => ?_, fun other hmem habs => ?_⟩
  · simp [Get, hv]
  · simp [Get, Finmap.lookup_eq_none.mpr habs]
  · obtain ⟨v, hv⟩ := Finmap.mem_iff.mp hmem
    simp [Get, hv, Finmap.lookup_eq_none.mpr habs]

/-- Witness of C6 amended: in the struct holding `"a"` with value `"1"`, the
present key `"a"` and the absent key `"b"`. -/
theorem get_returns_value_or_empty_witness :
    cacheA.storage.lookup "a" = some "1" ∧ (Get cacheA "a").ret = "1" ∧
    "b" ∉ cacheA.storage ∧ (Get cacheA "b").ret = "" ∧
    "a" ∈ cacheA.storage ∧
    ((Get cacheA "a").ret ≠ (Get cacheA "b").ret ↔ cacheA.storage.lookup "a" ≠ some "") :=
  ⟨by decide, (get_returns_value_or_empty cacheA "a").1 "1" (by decide),
    by decide, (get_returns_value_or_empty cacheA "b").2.1 (by decide),
    by decide, (get_returns_value_or_empty cacheA "a").2.2 "b" (by decide) (by decide)⟩

/-- C3 (one eviction for `N + 1` distinct keys): on a struct with an empty
map, `capacity` 0 and `maxCapacity = N > 0`, under a policy that removes one
stored key per call and keeps the counters, `Add` of `N + 1` pairwise distinct
keys leaves exactly `N` keys stored, has delegated to the policy exactly
once, and ends with `capacity == N`. -/
theorem add_distinct_keys_evicts_once {P : Type} [EvictionAlgo P] (hP : RemovesOneKey P)
    (N : Nat) (hN : 0 < N) (c : Cache P)
    (hstorage : c.storage = ∅) (hcap : c.capacity = 0) (hmax : c.maxCapacity = N)
    (kvs : List (String × String)) (hlen : kvs.length = N + 1)
    (hdistinct : (kvs.map Prod.fst).Nodup) :
    (run c (addOps kvs)).1.storage.keys.card = N ∧
    evictCount (run c (addOps kvs)).2 = 1 ∧
    (run c (addOps kvs)).1.capacity = N := by
  have hcard : c.storage.keys.card = 0 := by rw [hstorage]; rfl
  have hfresh : ∀ kv ∈ kvs, kv.1 ∉ c.storage := by
    intro kv _
    rw [hstorage]
    exact Finmap.not_mem_empty
  obtain ⟨_, b2, b3, b4⟩ :=
    addOps_fresh hP N hN kvs c hmax (by rw [hcap, hcard]; rfl) (by omega) hdistinct hfresh
  rw [hcard, hlen] at b3 b4
  refine ⟨by rw [b3]; omega, by rw [b4]; omega, ?_⟩
  rw [b2, b3]
  have : min N (0 + (N + 1)) = N := by omega
  rw [this]

/-- Witness of C3: `InitCache` (so `N = 2`) under the least-key policy and the
three keys `"a"`, `"b"`, `"c"`. -/
theorem add_distinct_keys_evicts_once_witness :
    RemovesOneKey LeastKey ∧
    (run (InitCache LeastKey.mk) (addOps [("a", "1"), ("b", "2"), ("c", "3")])).1.storage.keys.card
      = 2 ∧
    evictCount (run (InitCache LeastKey.mk) (addOps [("a", "1"), ("b", "2"), ("c", "3")])).2 = 1 ∧
    (run (InitCache LeastKey.mk) (addOps [("a", "1"), ("b", "2"), ("c", "3")])).1.capacity
      = (2 : Nat) :=
  ⟨leastKey_removesOneKey,
    add_distinct_keys_evicts_once leastKey_removesOneKey 2 (by decide)
      (InitCache LeastKey.mk) rfl rfl rfl [("a", "1"), ("b", "2"), ("c", "3")] rfl (by decide)⟩

/-- C10 (bound under `Add`/`Get`-only use): from `InitCache`, under a policy
that removes one stored key per call on a non-empty map and changes nothing
else, after every finite sequence of `Add` and `Get` calls (keys may repeat)
the number of stored keys is at most `capacity` and
`0 ≤ capacity ≤ maxCapacity = 2`; so the map never holds more than two keys. -/
theorem add_get_only_bound {P : Type} [EvictionAlgo P] (hP : RemovesOneKey P) (e : P)
    (ops : List (Op P)) (hops : ops.all Op.isAddOrGet = true) :
    ((run (InitCache e) ops).1.storage.keys.card : Int) ≤ (run (InitCache e) ops).1.capacity ∧
    0 ≤ (run (InitCache e) ops).1.capacity ∧
    (run (InitCache e) ops).1.capacity ≤ (run (InitCache e) ops).1.maxCapacity ∧
    (run (InitCache e) ops).1.maxCapacity = 2 ∧
    (run (InitCache e) ops).1.storage.keys.card ≤ 2 := by
  obtain ⟨h1, h2, h3, h4⟩ :=
    run_addGet_keeps_bound hP ops (InitCache e) hops (by simp [InitCache])
      (by simp [InitCache]) (by simp [InitCache]) (by simp [InitCache])
  have h5 : (run (InitCache e) ops).1.maxCapacity = 2 := h4
  exact ⟨h1, h2, h3, h5, by omega⟩

/-- Witness of C10: a sequence that repeats the key `"a"` and overfills the
cache, under the least-key policy. -/
theorem add_get_only_bound_witness :
    RemovesOneKey LeastKey ∧
    ([Op.add "a" "1", Op.add "a" "2", Op.get "a", Op.add "b" "2", Op.add "c" "3"] :
      List (Op LeastKey)).all Op.isAddOrGet = true ∧
    (run (InitCache LeastKey.mk)
      [Op.add "a" "1", Op.add "a" "2", Op.get "a", Op.add "b" "2", Op.add "c" "3"]).1.storage.keys.card
      ≤ 2 :=
  ⟨leastKey_removesOneKey, by decide,
    (add_get_only_bound leastKey_removesOneKey LeastKey.mk
      [Op.add "a" "1", Op.add "a" "2", Op.get "a", Op.add "b" "2", Op.add "c" "3"]
      (by decide)).2.2.2.2⟩

end Strategy
